import Mathlib

/-!
Shallow embedding of `attractions_similarity_updater.py` (the similarity-grouping
engine) and verification of its specification claims.

Modelling conventions:
* Cosine scores are rationals (`ℚ`).  The embedding computation
  (`SentenceTransformer` / `util.cos_sim`) is an external collaborator, so the
  score of an index pair is supplied as an opaque function `sc : ℕ → ℕ → ℚ`.
* `data_preprocessing.data_preprocess` is not part of this repository's source
  tree; per the spec it is an external normalization step that has already
  produced a clean ordered list of items, so it is modelled as the identity on
  the item list.
* pandas `DataFrame`s are modelled by lists of records; `uuid.uuid4()` tokens
  are modelled by per-run positional tokens `1, 2, …` (one per group, distinct
  within a run), and the `similarity_uuid` column's initial value `0` is the
  "no token written" value.
* On zero or one items `pd.DataFrame([])` has no columns, so the subsequent
  `pairs_df["index"]` column access raises a `KeyError`; this is the
  `Err.keyError` outcome below.  `Err.invalidThreshold` is the error kind the
  spec names for an out-of-range threshold; no code path produces it.
-/

/-- Error outcomes of the modelled pipeline.  `keyError` is the pandas
`KeyError` raised when a missing column is accessed; `invalidThreshold` is the
spec's error kind for a threshold outside `[-1, 1]`. -/
inductive Err where
  | keyError : Err
  | invalidThreshold : Err
deriving DecidableEq

/-- One row of the DataFrame built by `_pairs_df_model`: the `index` column is
the pair `[ind1, ind2]`, and `score` is the cosine score of the two vectors. -/
structure PairRec where
  ind1 : ℕ
  ind2 : ℕ
  score : ℚ
deriving DecidableEq

/-- Embedding of `SIMILARITY_THRESHOLD: float = 0.65` (as the rational 13/20). -/
def SIMILARITY_THRESHOLD : ℚ := mkRat 13 20

/-- Embedding of the nested loops of `_pairs_df_model`:
`for i in range(len(cosine_scores) - 1): for j in range(i + 1, len(cosine_scores))`,
appending `{'index': [i, j], 'score': cosine_scores[i][j]}` for each `i < j`.
Python's `range(a, b)` is `List.range' a (b - a)`. -/
def allPairs (n : ℕ) (sc : ℕ → ℕ → ℚ) : List PairRec :=
  (List.range (n - 1)).flatMap fun i =>
    (List.range' (i + 1) (n - (i + 1))).map fun j => ⟨i, j, sc i j⟩

/-- Stable insertion (descending by `score`) of one pair into a sorted list: the
new element goes in front of the first element whose score is not larger, so an
element inserted from the left keeps its place in front of equal scores. -/
def insertDesc (p : PairRec) : List PairRec → List PairRec
  | [] => [p]
  | q :: rest => if q.score ≤ p.score then p :: q :: rest else q :: insertDesc p rest

/-- Embedding of `sorted(pairs, key=lambda x: x['score'], reverse=True)`.
Python's `sorted` is a stable sort; a stable sort's output is uniquely
determined by the key and the input order, so stable insertion sort is an exact
model of it. -/
def sortByScoreDesc : List PairRec → List PairRec
  | [] => []
  | p :: rest => insertDesc p (sortByScoreDesc rest)

/-- Embedding of `_pairs_df_model`.  When there are fewer than two items the
`pairs` list is empty and `pd.DataFrame([])` is a DataFrame with no columns, so
the column access `pairs_df["index"]` (line 59 of the source) raises a
`KeyError` instead of yielding an empty pair set. -/
def pairsDfModel (n : ℕ) (sc : ℕ → ℕ → ℚ) : Except Err (List PairRec) :=
  let sortedPairs := sortByScoreDesc (allPairs n sc)
  if sortedPairs.isEmpty then Except.error Err.keyError else Except.ok sortedPairs

/-- Embedding of the filter expression
`similarity_df[similarity_df["score"] > SIMILARITY_THRESHOLD]` with the
threshold constant generalized to a parameter; `compute_similarity_groups`
applies it at `t = SIMILARITY_THRESHOLD` only. -/
def thresholdFilter (t : ℚ) (ps : List PairRec) : List PairRec :=
  ps.filter fun p => t < p.score

/-- Embedding of Python's `list.remove(x)`: removes the first element equal to
`x` (here sets are compared by extensional equality, as Python `set == set`). -/
def removeFirst : List (Finset ℕ) → Finset ℕ → List (Finset ℕ)
  | [], _ => []
  | g :: rest, x => if g = x then rest else g :: removeFirst rest x

/-- Embedding of the inner `for group in sets_list:` loop of `_groups_idx`,
with CPython's exact iterator semantics for a list mutated during iteration:
the iterator keeps a position `k`, yields `sets_list[k]` while `k` is in range
and then advances, so removing the current element makes the iterator skip the
element that slides into its place.  The loop body is, per the source:
`intersec = set(idx) & group; if len(intersec) > 0: group.update(idx);
first_match.update(group); sets_list.remove(group); was_selected = True`.
`fuel` bounds the number of iterations; `k` advances by one each step and the
list never grows inside the loop, so `L.length` initial fuel is enough (see
`innerLoop_fuel_succ`). -/
def innerLoop (S : Finset ℕ) :
    ℕ → ℕ → List (Finset ℕ) → Finset ℕ → Bool → List (Finset ℕ) × Finset ℕ × Bool
  | 0, _, L, fm, ws => (L, fm, ws)
  | fuel + 1, k, L, fm, ws =>
    if h : k < L.length then
      let group := L.get ⟨k, h⟩
      if (S ∩ group).Nonempty then
        let g := group ∪ S
        innerLoop S fuel (k + 1) (removeFirst (L.set k g) g) (fm ∪ g) true
      else
        innerLoop S fuel (k + 1) L fm ws
    else (L, fm, ws)

/-- Embedding of one iteration of the outer `for idx in similarity_df["index"]`
loop of `_groups_idx`: run the inner loop, then
`if len(first_match) > 0: sets_list.append(first_match)` and
`if not was_selected: sets_list.append(set(idx))`. -/
def processEdge (L : List (Finset ℕ)) (e : ℕ × ℕ) : List (Finset ℕ) :=
  let S : Finset ℕ := {e.1, e.2}
  let r := innerLoop S L.length 0 L ∅ false
  let L2 := if r.2.1.Nonempty then r.1 ++ [r.2.1] else r.1
  if r.2.2 then L2 else L2 ++ [S]

/-- Embedding of `_groups_idx`: fold the outer loop over the `index` column of
the filtered pair DataFrame, starting from the empty `sets_list`. -/
def groups_idx (edges : List (ℕ × ℕ)) : List (Finset ℕ) :=
  edges.foldl processEdge []

/-- Token finally stored in row `r` of the `similarity_uuid` column after the
loop over `groups_list` that assigns `str(uuid.uuid4())` into the rows
`df["similarity_uuid"].loc[list(group)]` of each group:
groups are written in list order, so for a row lying in several groups the last
containing group wins; rows never written keep the initial `0`.  The fresh
token of the group at position `p` is modelled as `p + 1`. -/
def tokenOf (groups : List (Finset ℕ)) (r : ℕ) : ℕ :=
  groups.enum.foldl (fun acc pg => if r ∈ pg.2 then pg.1 + 1 else acc) 0

/-- Embedding of `_groups_df`: collect the distinct indices touched by an
above-threshold pair (`list(set(np.ravel(...)))`), compute the groups, and emit
one `(id, similarity_uuid)` record per touched index. -/
def groups_df (edges : List (ℕ × ℕ)) (ids : ℕ → String) : List (String × ℕ) :=
  let touched := (edges.flatMap fun e => [e.1, e.2]).dedup
  let groups := groups_idx edges
  touched.map fun r => (ids r, tokenOf groups r)

/-- Embedding of `compute_similarity_groups`.  Its only inputs are the
attraction list (here: the list of item uuids, preprocessing modelled as the
identity) and the opaque cosine-score function of the external embedding model.
There is no threshold parameter: the filter uses the module constant
`SIMILARITY_THRESHOLD`, and no validation of any threshold is performed. -/
def computeSimilarityGroups (items : List String) (sc : ℕ → ℕ → ℚ) :
    Except Err (List (String × ℕ)) :=
  match pairsDfModel items.length sc with
  | Except.error e => Except.error e
  | Except.ok sdf =>
      Except.ok (groups_df ((thresholdFilter SIMILARITY_THRESHOLD sdf).map fun p =>
        (p.ind1, p.ind2)) fun r => items.getD r "")

/-- Modelled from the spec: the §6 contract
`compute_similarity_groups(items, threshold = 0.65)` with the `threshold`
parameter validated against `[-1, 1]` (`InvalidThreshold` otherwise).  This is
missing from the code: the source function takes no threshold argument and
performs no validation.  Defined only to compare the spec's interface with the
source's. -/
def computeSimilarityGroupsSpec (items : List String) (sc : ℕ → ℕ → ℚ) (t : ℚ) :
    Except Err (List (String × ℕ)) :=
  if t < -1 ∨ 1 < t then Except.error Err.invalidThreshold
  else
    match pairsDfModel items.length sc with
    | Except.error e => Except.error e
    | Except.ok sdf =>
        Except.ok (groups_df ((thresholdFilter t sdf).map fun p =>
          (p.ind1, p.ind2)) fun r => items.getD r "")

/-- Functional update of a matrix cell, modelling one assignment
`similarity_matrix.iloc[i][j] = v`. -/
def matWrite (M : ℕ → ℕ → ℚ) (i j : ℕ) (v : ℚ) : ℕ → ℕ → ℚ :=
  fun a b => if a = i ∧ b = j then v else M a b

/-- Embedding of the lookup
`similarity_idx_df[(ind1 == i) & (ind2 == j)]["score"].values` (the score of
the unique stored pair `(i, j)`; `0` when no such row exists). -/
def lookupScore (ps : List PairRec) (i j : ℕ) : ℚ :=
  ((ps.filter fun p => p.ind1 = i ∧ p.ind2 = j).map fun p => p.score).headD 0

/-- Embedding of `similarity_matrix`: for every `i` and `j ∈ range(i, n)`, the
diagonal is written with `1` and otherwise both `iloc[i][j]` and `iloc[j][i]`
are written with the single stored score of the pair `(i, j)`. Unwritten cells
keep the initial value. -/
def similarity_matrix (ps : List PairRec) (n : ℕ) : ℕ → ℕ → ℚ :=
  (List.range n).foldl
    (fun M i =>
      (List.range' i (n - i)).foldl
        (fun M j =>
          if j = i then matWrite (matWrite M i j 1) j i 1
          else matWrite (matWrite M i j (lookupScore ps i j)) j i (lookupScore ps i j))
        M)
    fun _ _ => 0

/-- Concrete score function realizing filtered edges
`[(0,1), (2,3), (1,2)]` in score-descending order: scores 0.9, 0.8, 0.7 with
every other pair at 0 (below the 0.65 threshold). -/
def scThree : ℕ → ℕ → ℚ := fun i j =>
  if i = 0 ∧ j = 1 then mkRat 9 10
  else if i = 2 ∧ j = 3 then mkRat 4 5
  else if i = 1 ∧ j = 2 then mkRat 7 10
  else 0

/-- Concrete score function for a two-item run: the single pair scores 0.9. -/
def scTwo : ℕ → ℕ → ℚ := fun i j => if i = 0 ∧ j = 1 then mkRat 9 10 else 0

/-- Concrete score function for the boundary scenario: the single pair scores
exactly the threshold 0.65. -/
def scBoundary : ℕ → ℕ → ℚ := fun i j =>
  if i = 0 ∧ j = 1 then SIMILARITY_THRESHOLD else 0

/-- Concrete score function used by witnesses over three items. -/
def scWitness : ℕ → ℕ → ℚ := fun i j => mkRat (i + j) 10

/-- Lexicographic "index order" on pair records: the enumeration order of the
nested loops of `_pairs_df_model`, used to state the tie-breaking behaviour of
the stable sort. -/
def lexLt (a b : PairRec) : Prop :=
  a.ind1 < b.ind1 ∨ (a.ind1 = b.ind1 ∧ a.ind2 < b.ind2)

/-- Generic invariant preservation for `List.foldl`. -/
theorem foldl_inv {α : Type} {β : Type} (P : α → Prop) (step : α → β → α)
    (l : List β) (init : α) (h0 : P init)
    (hstep : ∀ acc x, x ∈ l → P acc → P (step acc x)) :
    P (l.foldl step init) := by
  induction l generalizing init with
  | nil => exact h0
  | cons x t ih =>
      exact ih (step init x) (hstep init x (by simp) h0)
        fun acc y hy => hstep acc y (by simp [hy])

theorem removeFirst_length_le (l : List (Finset ℕ)) (x : Finset ℕ) :
    (removeFirst l x).length ≤ l.length := by
  induction l with
  | nil => simp [removeFirst]
  | cons g rest ih =>
      by_cases h : g = x <;> simp [removeFirst, h] <;> omega

theorem mem_of_mem_removeFirst {l : List (Finset ℕ)} {x s : Finset ℕ}
    (h : s ∈ removeFirst l x) : s ∈ l := by
  induction l with
  | nil => simpa [removeFirst] using h
  | cons g rest ih =>
      by_cases hg : g = x
      · simp [removeFirst, hg] at h
        simp [h]
      · simp [removeFirst, hg] at h
        rcases h with h | h
        · simp [h]
        · simp [ih h]

/-- One unit of fuel beyond `L.length - k` is never consumed: the iterator
position `k` advances by one each step and the list never grows, so the
`k < L.length` guard terminates the loop before the fuel does. -/
theorem innerLoop_fuel_succ (S : Finset ℕ) :
    ∀ (fuel k : ℕ) (L : List (Finset ℕ)) (fm : Finset ℕ) (ws : Bool),
      L.length ≤ k + fuel →
      innerLoop S (fuel + 1) k L fm ws = innerLoop S fuel k L fm ws := by
  intro fuel
  induction fuel with
  | zero =>
      intro k L fm ws hlen
      have hk : ¬ k < L.length := by omega
      simp [innerLoop, hk]
  | succ f ih =>
      intro k L fm ws hlen
      by_cases hk : k < L.length
      · rw [show f + 1 + 1 = (f + 1) + 1 from rfl]
        unfold innerLoop
        simp only [hk, dif_pos]
        by_cases hint : (S ∩ L.get ⟨k, hk⟩).Nonempty
        · simp only [hint, if_pos]
          apply ih
          have hrl := removeFirst_length_le (L.set k (L.get ⟨k, hk⟩ ∪ S)) (L.get ⟨k, hk⟩ ∪ S)
          rw [List.length_set] at hrl
          omega
        · simp only [hint, if_neg, not_false_iff]
          apply ih
          omega
      · simp [innerLoop, hk]

/-- Through the inner loop, every set in `sets_list` keeps at least `card S`
two elements whenever it started that way (sets only ever grow by union with
`S` or get removed), and `first_match`, once nonempty, contains a whole updated group. -/
theorem innerLoop_card_inv (S : Finset ℕ) (hS : 2 ≤ S.card) :
    ∀ (fuel k : ℕ) (L : List (Finset ℕ)) (fm : Finset ℕ) (ws : Bool),
      (∀ s ∈ L, 2 ≤ s.card) → (fm = ∅ ∨ 2 ≤ fm.card) →
      (∀ s ∈ (innerLoop S fuel k L fm ws).1, 2 ≤ s.card) ∧
      ((innerLoop S fuel k L fm ws).2.1 = ∅ ∨ 2 ≤ (innerLoop S fuel k L fm ws).2.1.card) := by
  intro fuel
  induction fuel with
  | zero =>
      intro k L fm ws hL hfm
      exact ⟨hL, hfm⟩
  | succ f ih =>
      intro k L fm ws hL hfm
      unfold innerLoop
      by_cases hk : k < L.length
      · simp only [hk, dif_pos]
        by_cases hint : (S ∩ L.get ⟨k, hk⟩).Nonempty
        · simp only [hint, if_pos]
          apply ih
          · intro s hs
            rcases List.mem_or_eq_of_mem_set (mem_of_mem_removeFirst hs) with hs' | hs'
            · exact hL s hs'
            · have : S ⊆ s := by rw [hs']; exact Finset.subset_union_right
              calc 2 ≤ S.card := hS
                _ ≤ s.card := Finset.card_le_card this
          · right
            have : S ⊆ fm ∪ (L.get ⟨k, hk⟩ ∪ S) := by
              intro a ha
              exact Finset.mem_union_right _ (Finset.mem_union_right _ ha)
            calc 2 ≤ S.card := hS
              _ ≤ _ := Finset.card_le_card this
        · simp only [hint, if_neg, not_false_iff]
          exact ih (k + 1) L fm ws hL hfm
      · simp only [hk, dif_neg, not_false_iff]
        exact ⟨hL, hfm⟩

/-- Every element of `processEdge L e` is a surviving inner-loop set, the
appended (nonempty) `first_match`, or the appended fresh `set(idx)`. -/
theorem mem_processEdge {L : List (Finset ℕ)} {e : ℕ × ℕ} {s : Finset ℕ}
    (hs : s ∈ processEdge L e) :
    s ∈ (innerLoop {e.1, e.2} L.length 0 L ∅ false).1 ∨
    (s = (innerLoop {e.1, e.2} L.length 0 L ∅ false).2.1 ∧
      (innerLoop {e.1, e.2} L.length 0 L ∅ false).2.1.Nonempty) ∨
    s = ({e.1, e.2} : Finset ℕ) := by
  unfold processEdge at hs
  cases hws : (innerLoop {e.1, e.2} L.length 0 L ∅ false).2.2 <;>
    by_cases hfm : (innerLoop {e.1, e.2} L.length 0 L ∅ false).2.1.Nonempty <;>
      simp [hws, hfm] at hs <;> tauto

/-- One outer iteration of `_groups_idx` preserves "every group has at least
two members", provided the incoming edge joins two distinct indices. -/
theorem processEdge_card_inv (L : List (Finset ℕ)) (e : ℕ × ℕ) (he : e.1 ≠ e.2)
    (hL : ∀ s ∈ L, 2 ≤ s.card) : ∀ s ∈ processEdge L e, 2 ≤ s.card := by
  intro s hs
  have hS : 2 ≤ ({e.1, e.2} : Finset ℕ).card := by
    rw [Finset.card_pair he]
  have hinv := innerLoop_card_inv {e.1, e.2} hS L.length 0 L ∅ false hL (Or.inl rfl)
  rcases mem_processEdge hs with h | ⟨h, hne⟩ | h
  · exact hinv.1 s h
  · rcases hinv.2 with h0 | h2
    · rw [h0] at hne
      exact absurd hne (by simp)
    · rw [h]; exact h2
  · rw [h]; exact hS

theorem insertDesc_perm (p : PairRec) (l : List PairRec) :
    List.Perm (insertDesc p l) (p :: l) := by
  induction l with
  | nil => exact List.Perm.refl _
  | cons q rest ih =>
      by_cases h : q.score ≤ p.score
      · simp [insertDesc, h]
      · simp only [insertDesc, h, if_neg, not_false_iff]
        exact ((ih.cons q).trans (List.Perm.swap p q rest))

theorem sortByScoreDesc_perm (l : List PairRec) :
    List.Perm (sortByScoreDesc l) l := by
  induction l with
  | nil => exact List.Perm.refl _
  | cons p rest ih =>
      exact (insertDesc_perm p (sortByScoreDesc rest)).trans (ih.cons p)

theorem insertDesc_sorted (p : PairRec) (l : List PairRec)
    (hl : l.Pairwise fun a b => b.score ≤ a.score) :
    (insertDesc p l).Pairwise fun a b => b.score ≤ a.score := by
  induction l with
  | nil => simp [insertDesc]
  | cons q rest ih =>
      rcases List.pairwise_cons.mp hl with ⟨hq, hrest⟩
      by_cases h : q.score ≤ p.score
      · simp only [insertDesc, h, if_pos]
        refine List.pairwise_cons.mpr ⟨?_, hl⟩
        intro r hr
        rcases List.mem_cons.mp hr with hr | hr
        · rw [hr]; exact h
        · exact le_trans (hq r hr) h
      · simp only [insertDesc, h, if_neg, not_false_iff]
        refine List.pairwise_cons.mpr ⟨?_, ih hrest⟩
        intro r hr
        have hr' := (insertDesc_perm p rest).mem_iff.mp hr
        rcases List.mem_cons.mp hr' with hr' | hr'
        · rw [hr']
          exact le_of_lt (lt_of_not_le h)
        · exact hq r hr'

theorem sortByScoreDesc_sorted (l : List PairRec) :
    (sortByScoreDesc l).Pairwise fun a b => b.score ≤ a.score := by
  induction l with
  | nil => simp [sortByScoreDesc]
  | cons p rest ih => exact insertDesc_sorted p (sortByScoreDesc rest) ih

theorem sublist_insertDesc (p : PairRec) (l : List PairRec) :
    List.Sublist l (insertDesc p l) := by
  induction l with
  | nil => exact List.nil_sublist _
  | cons q rest ih =>
      by_cases h : q.score ≤ p.score
      · simp only [insertDesc, h, if_pos]
        exact List.Sublist.cons p (List.Sublist.refl _)
      · simp only [insertDesc, h, if_neg, not_false_iff]
        exact List.Sublist.cons₂ q ih

/-- Inserting `p` into a descending-sorted list places it in front of every
element whose score is at most that of `p`: the stability core of the model. -/
theorem insertDesc_before (p b : PairRec) (l : List PairRec)
    (hl : l.Pairwise fun a b => b.score ≤ a.score)
    (hb : b ∈ l) (hble : b.score ≤ p.score) :
    List.Sublist [p, b] (insertDesc p l) := by
  induction l with
  | nil => exact absurd hb (List.not_mem_nil b)
  | cons q rest ih =>
      rcases List.pairwise_cons.mp hl with ⟨hq, hrest⟩
      by_cases h : q.score ≤ p.score
      · simp only [insertDesc, h, if_pos]
        exact List.Sublist.cons₂ p (List.singleton_sublist.mpr hb)
      · simp only [insertDesc, h, if_neg, not_false_iff]
        have hbq : b ∈ rest := by
          rcases List.mem_cons.mp hb with hb' | hb'
          · exact absurd (hb' ▸ hble) h
          · exact hb'
        exact List.Sublist.cons q (ih hrest hbq)

/-- Stability of the modelled Python sort: two elements with equal scores keep
their relative input order in the output. -/
theorem sortByScoreDesc_stable (a b : PairRec) (l : List PairRec)
    (hab : a.score = b.score) (h : List.Sublist [a, b] l) :
    List.Sublist [a, b] (sortByScoreDesc l) := by
  induction l with
  | nil => cases h
  | cons x rest ih =>
      cases h with
      | cons _ h' =>
          exact (ih h').trans (sublist_insertDesc x (sortByScoreDesc rest))
      | cons₂ _ h' =>
          have hb : b ∈ sortByScoreDesc rest :=
            (sortByScoreDesc_perm rest).mem_iff.mpr (List.singleton_sublist.mp h')
          exact insertDesc_before a b (sortByScoreDesc rest)
            (sortByScoreDesc_sorted rest) hb (le_of_eq hab.symm)

/-- Membership in the raw pair enumeration: exactly the records `⟨i, j, sc i j⟩`
with `i < j < n`. -/
theorem mem_allPairs (n : ℕ) (sc : ℕ → ℕ → ℚ) (p : PairRec) :
    p ∈ allPairs n sc ↔ p.ind1 < p.ind2 ∧ p.ind2 < n ∧ p.score = sc p.ind1 p.ind2 := by
  obtain ⟨i1, i2, s⟩ := p
  simp only [allPairs, List.mem_flatMap, List.mem_map, List.mem_range, List.mem_range'_1]
  constructor
  · rintro ⟨i, hi, j, ⟨hj1, hj2⟩, hrec⟩
    injection hrec with h1 h2 h3
    subst h1; subst h2; subst h3
    exact ⟨by omega, by omega, rfl⟩
  · rintro ⟨h1, h2, h3⟩
    exact ⟨i1, by omega, i2, ⟨by omega, by omega⟩, by rw [h3]⟩

/-- The pair enumeration lists the index pairs in strictly increasing
lexicographic order (hence also without duplicates). -/
theorem pairwise_lexLt_allPairs (n : ℕ) (sc : ℕ → ℕ → ℚ) :
    (allPairs n sc).Pairwise lexLt := by
  unfold allPairs
  rw [List.pairwise_flatMap]
  constructor
  · intro i _
    rw [List.pairwise_map]
    refine List.Pairwise.imp ?_ (List.pairwise_lt_range' (i + 1) (n - (i + 1)) 1)
    intro a b hab
    exact Or.inr ⟨rfl, hab⟩
  · refine List.Pairwise.imp ?_ (List.pairwise_lt_range (n - 1))
    intro i1 i2 h12 a ha b hb
    rw [List.mem_map] at ha hb
    obtain ⟨j1, _, rfl⟩ := ha
    obtain ⟨j2, _, rfl⟩ := hb
    exact Or.inl h12

theorem sum_map_range (m : ℕ) (g : ℕ → ℕ) :
    ((List.range m).map g).sum = ∑ i in Finset.range m, g i := by
  induction m with
  | zero => simp
  | succ k ih =>
      rw [List.range_succ, Finset.sum_range_succ, List.map_append, List.sum_append]
      simp [ih]

/-- The enumeration produces exactly `n·(n-1)/2` pairs. -/
theorem length_allPairs (n : ℕ) (sc : ℕ → ℕ → ℚ) :
    (allPairs n sc).length = n * (n - 1) / 2 := by
  have hlen : (allPairs n sc).length
      = ((List.range (n - 1)).map fun i => n - (i + 1)).sum := by
    unfold allPairs
    rw [List.length_flatMap]
    apply congrArg
    apply List.map_congr_left
    intro i _
    simp [List.length_map, List.length_range']
  rw [hlen, sum_map_range]
  rcases Nat.eq_zero_or_pos n with hn | hn
  · subst hn; simp
  · obtain ⟨m, rfl⟩ : ∃ m, n = m + 1 := ⟨n - 1, by omega⟩
    simp only [Nat.add_sub_cancel]
    have hcongr : ∑ i in Finset.range m, (m + 1 - (i + 1))
        = ∑ i in Finset.range m, ((m - 1 - i) + 1) := by
      apply Finset.sum_congr rfl
      intro i hi
      rw [Finset.mem_range] at hi
      omega
    rw [hcongr, Finset.sum_range_reflect (fun k => k + 1) m]
    have hsum : ∑ i in Finset.range m, (i + 1) = (∑ i in Finset.range m, i) + m := by
      rw [Finset.sum_add_distrib]
      simp
    rw [hsum]
    have hg := Finset.sum_range_id_mul_two m
    have hq : m * (m - 1) + 2 * m = (m + 1) * m := by
      cases m with
      | zero => rfl
      | succ k =>
          simp only [Nat.succ_sub_one]
          ring
    generalize hA : m * (m - 1) = A at hg hq
    generalize hB : (m + 1) * m = B at hq ⊢
    omega

theorem lexLt_asymm (x y : PairRec) (h : lexLt x y) : ¬ lexLt y x := by
  unfold lexLt at h ⊢
  omega

/-- In a strictly `R`-increasing list, any two elements in relation `R` occur
in that order, as a two-element sublist. -/
theorem pair_sublist_of_pairwise {R : PairRec → PairRec → Prop}
    (hasymm : ∀ x y, R x y → ¬ R y x) :
    ∀ (l : List PairRec) (a b : PairRec), l.Pairwise R → a ∈ l → b ∈ l → R a b →
      List.Sublist [a, b] l := by
  intro l
  induction l with
  | nil =>
      intro a b _ ha
      cases ha
  | cons x t ih =>
      intro a b hp ha hb hr
      rcases List.pairwise_cons.mp hp with ⟨hx, ht⟩
      rcases List.mem_cons.mp ha with rfl | ha'
      · have hb' : b ∈ t := by
          rcases List.mem_cons.mp hb with rfl | hb'
          · exact absurd hr (hasymm _ _ hr)
          · exact hb'
        exact List.Sublist.cons₂ a (List.singleton_sublist.mpr hb')
      · have hb' : b ∈ t := by
          rcases List.mem_cons.mp hb with rfl | hb'
          · exact absurd (hx _ ha') (hasymm _ _ hr)
          · exact hb'
        exact List.Sublist.cons x (ih a b ht ha' hb' hr)

theorem sorted_allPairs_ne_nil (n : ℕ) (sc : ℕ → ℕ → ℚ) (h : 2 ≤ n) :
    sortByScoreDesc (allPairs n sc) ≠ [] := by
  have hm : (⟨0, 1, sc 0 1⟩ : PairRec) ∈ allPairs n sc :=
    (mem_allPairs n sc _).mpr ⟨Nat.one_pos, (by omega : (1:ℕ) < n), rfl⟩
  exact List.ne_nil_of_mem ((sortByScoreDesc_perm (allPairs n sc)).mem_iff.mpr hm)

/-- With at least two items, `_pairs_df_model` succeeds and returns the sorted
enumeration. -/
theorem pairsDfModel_ok (n : ℕ) (sc : ℕ → ℕ → ℚ) (h : 2 ≤ n) :
    pairsDfModel n sc = Except.ok (sortByScoreDesc (allPairs n sc)) := by
  have hne := sorted_allPairs_ne_nil n sc h
  simp [pairsDfModel, List.isEmpty_iff, hne]

/-- `_pairs_df_model` can only fail with the `KeyError` of the missing `index`
column. -/
theorem pairsDfModel_error (n : ℕ) (sc : ℕ → ℕ → ℚ) (e : Err)
    (h : pairsDfModel n sc = Except.error e) : e = Err.keyError := by
  unfold pairsDfModel at h
  by_cases hemp : (sortByScoreDesc (allPairs n sc)).isEmpty
  · simp [hemp] at h
    exact h.symm
  · simp [hemp] at h

/-- The source writes `iloc[i][j]` and `iloc[j][i]` with the same value in one
loop body, so each write step preserves symmetry of the matrix. -/
theorem matWrite_pair_symm (M : ℕ → ℕ → ℚ) (i j : ℕ) (v : ℚ)
    (hM : ∀ a b, M a b = M b a) :
    ∀ a b, matWrite (matWrite M i j v) j i v a b = matWrite (matWrite M i j v) j i v b a := by
  intro a b
  unfold matWrite
  split_ifs <;> first | rfl | tauto

theorem similarity_matrix_symm_inv (ps : List PairRec) (n : ℕ) :
    ∀ a b, similarity_matrix ps n a b = similarity_matrix ps n b a := by
  unfold similarity_matrix
  refine foldl_inv (fun M : ℕ → ℕ → ℚ => ∀ a b, M a b = M b a) _ (List.range n)
    (fun _ _ => 0) (fun _ _ => rfl) ?_
  intro M x _ hM
  refine foldl_inv (fun M : ℕ → ℕ → ℚ => ∀ a b, M a b = M b a) _
    (List.range' x (n - x)) M hM ?_
  intro M2 y _ hM2
  by_cases hxy : y = x
  · subst hxy
    rw [if_pos rfl]
    exact matWrite_pair_symm M2 y y 1 hM2
  · rw [if_neg hxy]
    exact matWrite_pair_symm M2 x y (lookupScore ps x y) hM2

/-- C1: refuted as stated.  `_groups_idx` is order-dependent: the two edge
lists below contain the same edges (they are permutations of each other), yet
the routine returns `[{2,3}, {0,1,2}]` for one order and `[{0,1,2,3}]` for the
other — different collections of sets, not merely relabelled.  The cause is the
`sets_list.remove(group)` call inside `for group in sets_list:`, which makes the
iterator skip the element sliding into the removed slot, so the edge `(1,2)` is
never intersected with `{2,3}`. -/
theorem c1_groups_idx_order_dependent :
    List.Perm [((0:ℕ), (1:ℕ)), (2, 3), (1, 2)] [(0, 1), (1, 2), (2, 3)] ∧
    groups_idx [(0, 1), (2, 3), (1, 2)] = [{2, 3}, {0, 1, 2}] ∧
    groups_idx [(0, 1), (1, 2), (2, 3)] = [{0, 1, 2, 3}] ∧
    (groups_idx [(0, 1), (2, 3), (1, 2)]).toFinset ≠
      (groups_idx [(0, 1), (1, 2), (2, 3)]).toFinset :=
  ⟨by decide, by decide, by decide, by decide⟩

/-- C2: refuted as stated.  On the edge list `[(0,1), (2,3), (1,2)]` the sets
returned by `_groups_idx` are `{2,3}` and `{0,1,2}`, which share the index `2`:
the output is not pairwise disjoint (contradicting the routine's own docstring
"There is no overlap of indices between the groups"). -/
theorem c2_groups_idx_not_disjoint :
    groups_idx [((0:ℕ), (1:ℕ)), (2, 3), (1, 2)] = [{2, 3}, {0, 1, 2}] ∧
    ¬ List.Pairwise (fun s t : Finset ℕ => Disjoint s t)
      (groups_idx [(0, 1), (2, 3), (1, 2)]) :=
  ⟨by decide, by decide⟩

/-- C3: refuted as stated.  With scores 0.9 for (A,B), 0.8 for (C,D), 0.7 for
(B,C) and 0 elsewhere, both `score(B,C)` and `score(C,D)` exceed the 0.65
threshold, yet the pipeline assigns `B` token 2 and `D` token 1: transitively
connected items do not share a `group_id`. -/
theorem c3_transitivity_violated :
    SIMILARITY_THRESHOLD < scThree 1 2 ∧ SIMILARITY_THRESHOLD < scThree 2 3 ∧
    computeSimilarityGroups ["A", "B", "C", "D"] scThree =
      Except.ok [("A", 2), ("D", 1), ("B", 2), ("C", 2)] ∧
    ∀ gB gD : ℕ,
      ("B", gB) ∈ [(("A":String), (2:ℕ)), ("D", 1), ("B", 2), ("C", 2)] →
      ("D", gD) ∈ [(("A":String), (2:ℕ)), ("D", 1), ("B", 2), ("C", 2)] →
      gB ≠ gD := by
  refine ⟨by decide, by decide, rfl, ?_⟩
  intro gB gD hB hD
  simp at hB hD
  omega

/-- C4: refuted as stated.  In the four-item run with the `scThree` scores the
computed components are `{2,3}` and `{0,1,2}` (both of size ≥ 2), but they
overlap at index 2, so the labelling loop overwrites the token of index 2: the
members 2 and 3 of the component `{2,3}` end up with different tokens, i.e. not
every member of a computed component receives the identical `group_id`. -/
theorem c4_component_label_mismatch :
    groups_idx [((0:ℕ), (1:ℕ)), (2, 3), (1, 2)] = [{2, 3}, {0, 1, 2}] ∧
    2 ≤ ({2, 3} : Finset ℕ).card ∧
    computeSimilarityGroups ["A", "B", "C", "D"] scThree =
      Except.ok [("A", 2), ("D", 1), ("B", 2), ("C", 2)] ∧
    tokenOf [{2, 3}, {0, 1, 2}] 2 ≠ tokenOf [{2, 3}, {0, 1, 2}] 3 :=
  ⟨by decide, by decide, rfl, by decide⟩

/-- C5: the threshold filter keeps exactly the pairs whose score strictly
exceeds the threshold; a pair scoring exactly the threshold is dropped, and a
two-item run whose only pair scores exactly 0.65 produces empty output. -/
theorem c5_threshold_filter_strict (t : ℚ) (ps : List PairRec) (p : PairRec)
    (items : List String) (sc : ℕ → ℕ → ℚ)
    (h2 : items.length = 2) (hsc : sc 0 1 = SIMILARITY_THRESHOLD) :
    (p ∈ thresholdFilter t ps ↔ p ∈ ps ∧ t < p.score) ∧
    (p.score = t → p ∉ thresholdFilter t ps) ∧
    computeSimilarityGroups items sc = Except.ok [] := by
  refine ⟨?_, ?_, ?_⟩
  · simp [thresholdFilter, List.mem_filter]
  · intro hpt hmem
    rw [thresholdFilter, List.mem_filter] at hmem
    rw [hpt] at hmem
    simp at hmem
  · unfold computeSimilarityGroups
    rw [h2]
    have hpdf : pairsDfModel 2 sc = Except.ok [⟨0, 1, sc 0 1⟩] := rfl
    rw [hpdf]
    simp [thresholdFilter, groups_df, hsc, groups_idx, tokenOf]

theorem c5_threshold_filter_strict_witness :
    (["A", "B"].length = 2) ∧ scBoundary 0 1 = SIMILARITY_THRESHOLD ∧
    (((⟨0, 1, mkRat 1 1⟩ : PairRec) ∈ thresholdFilter 0 [] ↔
        (⟨0, 1, mkRat 1 1⟩ : PairRec) ∈ ([] : List PairRec) ∧ (0 : ℚ) < mkRat 1 1) ∧
      ((⟨0, 1, mkRat 1 1⟩ : PairRec).score = 0 →
        (⟨0, 1, mkRat 1 1⟩ : PairRec) ∉ thresholdFilter 0 []) ∧
      computeSimilarityGroups ["A", "B"] scBoundary = Except.ok []) :=
  ⟨rfl, rfl, c5_threshold_filter_strict 0 [] ⟨0, 1, mkRat 1 1⟩ ["A", "B"] scBoundary rfl rfl⟩

/-- C6: refuted as stated.  On zero items (and likewise on one item) the
pipeline does not return an empty result: the empty pair list makes
`pd.DataFrame([])` a column-less DataFrame, and the access `pairs_df["index"]`
inside `_pairs_df_model` raises a `KeyError`, which aborts
`compute_similarity_groups`. -/
theorem c6_empty_input_raises :
    computeSimilarityGroups [] (fun _ _ => 0) = Except.error Err.keyError ∧
    computeSimilarityGroups ["A"] (fun _ _ => 0) = Except.error Err.keyError :=
  ⟨rfl, rfl⟩

/-- C7: with `n ≥ 2` items, `_pairs_df_model` succeeds and its output is a
permutation of the full enumeration: it has exactly `n·(n-1)/2` rows, contains
precisely one record per unordered index pair `i < j < n` (no self pairs, no
duplicates), is sorted by score descending, and breaks score ties by the
enumeration (index) order thanks to the stability of Python's sort. -/
theorem c7_pairwise_scorer_enumeration (n : ℕ) (sc : ℕ → ℕ → ℚ) (h : 2 ≤ n) :
    pairsDfModel n sc = Except.ok (sortByScoreDesc (allPairs n sc)) ∧
    (sortByScoreDesc (allPairs n sc)).length = n * (n - 1) / 2 ∧
    (∀ p : PairRec, p ∈ sortByScoreDesc (allPairs n sc) ↔
      p.ind1 < p.ind2 ∧ p.ind2 < n ∧ p.score = sc p.ind1 p.ind2) ∧
    ((sortByScoreDesc (allPairs n sc)).map fun p => (p.ind1, p.ind2)).Nodup ∧
    (sortByScoreDesc (allPairs n sc)).Pairwise (fun a b => b.score ≤ a.score) ∧
    (∀ a b : PairRec, a ∈ allPairs n sc → b ∈ allPairs n sc → a.score = b.score →
      lexLt a b → List.Sublist [a, b] (sortByScoreDesc (allPairs n sc))) := by
  refine ⟨pairsDfModel_ok n sc h, ?_, ?_, ?_, sortByScoreDesc_sorted _, ?_⟩
  · rw [(sortByScoreDesc_perm _).length_eq, length_allPairs]
  · intro p
    rw [(sortByScoreDesc_perm _).mem_iff, mem_allPairs]
  · have hpw2 : (allPairs n sc).Pairwise
        (fun a b : PairRec => (a.ind1, a.ind2) ≠ (b.ind1, b.ind2)) := by
      refine (pairwise_lexLt_allPairs n sc).imp ?_
      intro a b hab
      unfold lexLt at hab
      intro hcontra
      have h1 : a.ind1 = b.ind1 := congrArg Prod.fst hcontra
      have h2 : a.ind2 = b.ind2 := congrArg Prod.snd hcontra
      omega
    have hnd : ((allPairs n sc).map fun p => (p.ind1, p.ind2)).Nodup :=
      List.pairwise_map.mpr hpw2
    exact (((sortByScoreDesc_perm (allPairs n sc)).map _).nodup_iff).mpr hnd
  · intro a b ha hb hs hl
    exact sortByScoreDesc_stable a b _ hs
      (pair_sublist_of_pairwise lexLt_asymm _ a b (pairwise_lexLt_allPairs n sc) ha hb hl)

theorem c7_pairwise_scorer_enumeration_witness :
    2 ≤ 3 ∧
    (pairsDfModel 3 scWitness = Except.ok (sortByScoreDesc (allPairs 3 scWitness)) ∧
      (sortByScoreDesc (allPairs 3 scWitness)).length = 3 * (3 - 1) / 2 ∧
      (∀ p : PairRec, p ∈ sortByScoreDesc (allPairs 3 scWitness) ↔
        p.ind1 < p.ind2 ∧ p.ind2 < 3 ∧ p.score = scWitness p.ind1 p.ind2) ∧
      ((sortByScoreDesc (allPairs 3 scWitness)).map fun p => (p.ind1, p.ind2)).Nodup ∧
      (sortByScoreDesc (allPairs 3 scWitness)).Pairwise (fun a b => b.score ≤ a.score) ∧
      (∀ a b : PairRec, a ∈ allPairs 3 scWitness → b ∈ allPairs 3 scWitness →
        a.score = b.score → lexLt a b →
        List.Sublist [a, b] (sortByScoreDesc (allPairs 3 scWitness)))) :=
  ⟨by decide, c7_pairwise_scorer_enumeration 3 scWitness (by decide)⟩

/-- C8: the similarity score is symmetric: the dense matrix built by
`similarity_matrix` satisfies `M[i][j] = M[j][i]` for all `i`, `j` (in
particular for distinct indices), because each loop body writes both
orientations of a cell with the single stored score of the unordered pair. -/
theorem c8_similarity_matrix_symmetric (ps : List PairRec) (n i j : ℕ) :
    similarity_matrix ps n i j = similarity_matrix ps n j i :=
  similarity_matrix_symm_inv ps n i j

/-- C9: refuted as stated.  `compute_similarity_groups` has no threshold
parameter and performs no validation: on a well-formed two-item input it
produces a grouping using the fixed constant, and it cannot fail with
`InvalidThreshold` — unlike the spec's contract, modelled by
`computeSimilarityGroupsSpec`, which rejects the out-of-range threshold `2`. -/
theorem c9_no_threshold_validation :
    computeSimilarityGroupsSpec ["A", "B"] scTwo (mkRat 2 1) =
      Except.error Err.invalidThreshold ∧
    computeSimilarityGroups ["A", "B"] scTwo = Except.ok [("A", 1), ("B", 1)] ∧
    computeSimilarityGroups ["A", "B"] scTwo ≠ Except.error Err.invalidThreshold := by
  refine ⟨?_, rfl, ?_⟩
  · unfold computeSimilarityGroupsSpec
    rw [if_pos]
    right
    decide
  · have heq : computeSimilarityGroups ["A", "B"] scTwo = Except.ok [("A", 1), ("B", 1)] := rfl
    rw [heq]
    simp

/-- C9 (amended): the threshold is the module constant
`SIMILARITY_THRESHOLD = 0.65`; `compute_similarity_groups` takes no threshold
argument and never fails with `InvalidThreshold` on any input. -/
theorem c9_fixed_threshold_amended (items : List String) (sc : ℕ → ℕ → ℚ) :
    SIMILARITY_THRESHOLD = mkRat 13 20 ∧
    computeSimilarityGroups items sc ≠ Except.error Err.invalidThreshold := by
  refine ⟨rfl, ?_⟩
  intro hcontra
  unfold computeSimilarityGroups at hcontra
  cases hpdf : pairsDfModel items.length sc with
  | error e =>
      rw [hpdf] at hcontra
      simp at hcontra
      have hke := pairsDfModel_error items.length sc e hpdf
      rw [hcontra] at hke
      exact absurd hke (by decide)
  | ok sdf =>
      rw [hpdf] at hcontra
      simp at hcontra

/-- C10: when every input pair joins two distinct indices (as the pipeline
guarantees, since `_pairs_df_model` only emits `i < j`), every set returned by
`_groups_idx` has at least two elements: size-1 groups can never be produced. -/
theorem c10_groups_min_card (edges : List (ℕ × ℕ)) (h : ∀ e ∈ edges, e.1 ≠ e.2) :
    ∀ s ∈ groups_idx edges, 2 ≤ s.card := by
  unfold groups_idx
  exact foldl_inv (fun L => ∀ s ∈ L, 2 ≤ s.card) processEdge edges []
    (by intro s hs; cases hs)
    (fun L e he hL => processEdge_card_inv L e (h e he) hL)

theorem c10_groups_min_card_witness :
    (∀ e ∈ [((0:ℕ), (1:ℕ)), (1, 2), (0, 2)], e.1 ≠ e.2) ∧
    ∀ s ∈ groups_idx [(0, 1), (1, 2), (0, 2)], 2 ≤ s.card :=
  ⟨by decide, c10_groups_min_card [(0, 1), (1, 2), (0, 2)] (by decide)⟩
